import Mathlib

/-!
Verification of the png2svg converter.

The program scans a raster image row by row, left to right.  In each row it
partitions the non-transparent pixels into maximal horizontal runs of pixels
with identical (r, g, b), emits one rectangle (x0, y, width, 1) per run into a
mapping keyed by the lowercase hex color string, and finally serializes the
mapping as an SVG document: one group per color key with one rect per run.

The embedding below mirrors the source: the two while loops become
fuel-indexed structural recursions (the fuel is chosen so that it never runs
out before the loop condition fails), the insertion-ordered dict with
setdefault-append becomes an association list, and the f-string writer
becomes explicit string concatenation.
-/

structure Pixel where
  r : Nat
  g : Nat
  b : Nat
  a : Nat
deriving DecidableEq

structure Image where
  w : Nat
  h : Nat
  px : Nat → Nat → Pixel

structure Rect where
  x : Nat
  y : Nat
  w : Nat
  h : Nat
deriving DecidableEq

/-- One lowercase hexadecimal digit, as in Python string formatting. -/
def hexDigit (n : Nat) : Char :=
  if n < 10 then Char.ofNat (48 + n) else Char.ofNat (87 + n)

/-- Hex digits of n, most significant first; empty for 0.  The fuel bounds the
recursion depth and n itself always suffices. -/
def hexDigitsAux : Nat → Nat → List Char
  | 0, _ => []
  | fuel + 1, n => if n = 0 then [] else hexDigitsAux fuel (n / 16) ++ [hexDigit (n % 16)]

def hexDigits (n : Nat) : List Char :=
  hexDigitsAux n n

/-- Lowercase hex rendering of a natural number, as Python x-format. -/
def toHex (n : Nat) : String :=
  if n = 0 then "0" else String.mk (hexDigits n)

/-- Python 02x formatting: lowercase hex, zero-padded to width at least 2. -/
def hex2 (n : Nat) : String :=
  let s := toHex n
  if s.length < 2 then "0" ++ s else s

/-- The color key string built from the run color, as in the source. -/
def colorKey (r g b : Nat) : String :=
  "#" ++ hex2 r ++ hex2 g ++ hex2 b

/-- The inner while loop of the source: starting at x, advance while the pixel
at (x, y) is inside the row, non-transparent and of rgb color c; return the
final x.  Fuel-indexed; the wrapper passes enough fuel. -/
def extendRunAux (img : Image) (y : Nat) (c : Nat × Nat × Nat) : Nat → Nat → Nat
  | 0, x => x
  | fuel + 1, x =>
    if x < img.w then
      if (img.px x y).a = 0 ∨ ((img.px x y).r, (img.px x y).g, (img.px x y).b) ≠ c then x
      else extendRunAux img y c fuel (x + 1)
    else x

def extendRun (img : Image) (y : Nat) (c : Nat × Nat × Nat) (x : Nat) : Nat :=
  extendRunAux img y c (img.w - x) x

/-- The outer while loop of the source over one row: skip transparent pixels,
otherwise cut one run and emit (color key, rect) in scan order. -/
def scanRowAux (img : Image) (y : Nat) : Nat → Nat → List (String × Rect)
  | 0, _ => []
  | fuel + 1, x =>
    if x < img.w then
      if (img.px x y).a = 0 then scanRowAux img y fuel (x + 1)
      else
        (colorKey (img.px x y).r (img.px x y).g (img.px x y).b,
          ⟨x, y, extendRun img y ((img.px x y).r, (img.px x y).g, (img.px x y).b) x - x, 1⟩) ::
          scanRowAux img y fuel (extendRun img y ((img.px x y).r, (img.px x y).g, (img.px x y).b) x)
    else []

def scanRow (img : Image) (y : Nat) : List (String × Rect) :=
  scanRowAux img y img.w 0

/-- All (color key, rect) pairs emitted by the scan, in row-major order. -/
def allRuns (img : Image) : List (String × Rect) :=
  ((List.range img.h).map (fun y => scanRow img y)).flatten

/-- layers.setdefault(color, []).append(rect) on an insertion-ordered dict,
modelled as an association list. -/
def addRun (layers : List (String × List Rect)) (c : String) (rc : Rect) :
    List (String × List Rect) :=
  match layers with
  | [] => [(c, [rc])]
  | (c0, rs) :: rest =>
    if c0 = c then (c0, rs ++ [rc]) :: rest else (c0, rs) :: addRun rest c rc

/-- The layers dict after the whole scan. -/
def buildLayers (runs : List (String × Rect)) : List (String × List Rect) :=
  runs.foldl (fun acc cr => addRun acc cr.1 cr.2) []

def rectLine (rc : Rect) : String :=
  "    <rect x=\"" ++ toString rc.x ++ "\" y=\"" ++ toString rc.y ++
    "\" width=\"" ++ toString rc.w ++ "\" height=\"" ++ toString rc.h ++ "\"/>\n"

def groupText (c : String) (rs : List Rect) : String :=
  "  <g fill=\"" ++ c ++ "\">\n" ++ String.join (rs.map rectLine) ++ "  </g>\n"

def svgHeader (w h : Nat) : String :=
  "<svg xmlns=\"http://www.w3.org/2000/svg\" viewBox=\"0 0 " ++ toString w ++ " " ++
    toString h ++ "\" shape-rendering=\"crispEdges\">\n"

/-- The full output document written by the source. -/
def svgDoc (img : Image) : String :=
  svgHeader img.w img.h ++
    String.join ((buildLayers (allRuns img)).map (fun cl => groupText cl.1 cl.2)) ++
    "</svg>\n"

/-- Does rectangle rc cover the pixel (x, y)? -/
def coversB (rc : Rect) (x y : Nat) : Bool :=
  decide (rc.x ≤ x) && decide (x < rc.x + rc.w) &&
    decide (rc.y ≤ y) && decide (y < rc.y + rc.h)

/-- In-bounds pixels have byte-sized color channels, as guaranteed by the
RGBA decoding of the input image. -/
def Image.Wf (img : Image) : Prop :=
  ∀ x y, x < img.w → y < img.h →
    (img.px x y).r < 256 ∧ (img.px x y).g < 256 ∧ (img.px x y).b < 256

/-- Spec-side description of group order: color keys in order of first
encounter during the row-major scan, given the keys already seen. -/
def firstKeysAux (seen : List String) : List (String × Rect) → List String
  | [] => []
  | cr :: rest =>
    if cr.1 ∈ seen then firstKeysAux seen rest
    else cr.1 :: firstKeysAux (cr.1 :: seen) rest

/-- Spec-side description of group order: color keys in order of first
encounter during the row-major scan. -/
def firstKeys (runs : List (String × Rect)) : List String :=
  firstKeysAux [] runs

def redRedBlue : Image :=
  { w := 3, h := 1,
    px := fun x _ => if x < 2 then ⟨255, 0, 0, 255⟩ else ⟨0, 0, 255, 255⟩ }

def clearImage (w h : Nat) : Image :=
  { w := w, h := h, px := fun _ _ => ⟨0, 0, 0, 0⟩ }

def twoAlphas : Image :=
  { w := 2, h := 1,
    px := fun x _ => if x = 0 then ⟨10, 20, 30, 255⟩ else ⟨10, 20, 30, 7⟩ }

def detA : Image :=
  { w := 1, h := 1, px := fun _ _ => ⟨5, 6, 7, 255⟩ }

def detB : Image :=
  { w := 1, h := 1,
    px := fun x y => if x = 0 ∧ y = 0 then ⟨5, 6, 7, 255⟩ else ⟨1, 1, 1, 0⟩ }

example : colorKey 255 0 0 = "#ff0000" := by decide

example : buildLayers (allRuns redRedBlue) =
    [("#ff0000", [⟨0, 0, 2, 1⟩]), ("#0000ff", [⟨2, 0, 1, 1⟩])] := by decide

example : allRuns (clearImage 2 2) = [] := by decide

example : allRuns twoAlphas = [("#0a141e", ⟨0, 0, 2, 1⟩)] := by decide

/-- The inner loop never moves left. -/
theorem le_extendRunAux (img : Image) (y : Nat) (c : Nat × Nat × Nat) :
    ∀ fuel x, x ≤ extendRunAux img y c fuel x := by
  intro fuel
  induction fuel with
  | zero => intro x; simp [extendRunAux]
  | succ n ih =>
    intro x
    rw [extendRunAux]
    split
    · split
      · exact Nat.le_refl x
      · exact Nat.le_trans (Nat.le_succ x) (ih (x + 1))
    · exact Nat.le_refl x

/-- The inner loop never moves past the row width. -/
theorem extendRunAux_le (img : Image) (y : Nat) (c : Nat × Nat × Nat) :
    ∀ fuel x, x ≤ img.w → extendRunAux img y c fuel x ≤ img.w := by
  intro fuel
  induction fuel with
  | zero => intro x hx; simpa [extendRunAux] using hx
  | succ n ih =>
    intro x hx
    rw [extendRunAux]
    split
    · split
      · exact hx
      · exact ih (x + 1) (by omega)
    · exact hx

/-- Every position strictly passed by the inner loop holds a non-transparent
pixel of exactly the run color. -/
theorem extendRunAux_pixels (img : Image) (y : Nat) (c : Nat × Nat × Nat) :
    ∀ fuel x t, x ≤ t → t < extendRunAux img y c fuel x →
      (img.px t y).a ≠ 0 ∧ ((img.px t y).r, (img.px t y).g, (img.px t y).b) = c := by
  intro fuel
  induction fuel with
  | zero => intro x t hxt ht; rw [extendRunAux] at ht; omega
  | succ n ih =>
    intro x t hxt ht
    rw [extendRunAux] at ht
    split at ht
    · split at ht
      · omega
      · rcases Nat.eq_or_lt_of_le hxt with h | h
        · subst h
          rename_i hcond
          push_neg at hcond
          exact hcond
        · exact ih (x + 1) t h ht
    · omega

/-- Where the inner loop stops: either the row is exhausted, or the pixel at
the stop position is transparent or of a different color. -/
theorem extendRunAux_maximal (img : Image) (y : Nat) (c : Nat × Nat × Nat) :
    ∀ fuel x, x ≤ img.w → img.w - x ≤ fuel →
      extendRunAux img y c fuel x = img.w ∨
        ((img.px (extendRunAux img y c fuel x) y).a = 0 ∨
          ((img.px (extendRunAux img y c fuel x) y).r,
            (img.px (extendRunAux img y c fuel x) y).g,
            (img.px (extendRunAux img y c fuel x) y).b) ≠ c) := by
  intro fuel
  induction fuel with
  | zero =>
    intro x hx hf
    left
    rw [extendRunAux]
    omega
  | succ n ih =>
    intro x hx hf
    rw [extendRunAux]
    split
    · split
      · right; assumption
      · exact ih (x + 1) (by omega) (by omega)
    · left; omega

/-- When the pixel at the start matches the run color, the inner loop makes
at least one step. -/
theorem extendRunAux_progress (img : Image) (y : Nat) (c : Nat × Nat × Nat) :
    ∀ fuel x, x < img.w → img.w - x ≤ fuel → (img.px x y).a ≠ 0 →
      ((img.px x y).r, (img.px x y).g, (img.px x y).b) = c →
      x + 1 ≤ extendRunAux img y c fuel x := by
  intro fuel
  cases fuel with
  | zero => intro x hx hf; omega
  | succ n =>
    intro x hx hf ha hc
    rw [extendRunAux]
    rw [if_pos hx, if_neg (by push_neg; exact ⟨ha, hc⟩)]
    exact le_extendRunAux img y c n (x + 1)

theorem le_extendRun (img : Image) (y : Nat) (c : Nat × Nat × Nat) (x : Nat) :
    x ≤ extendRun img y c x :=
  le_extendRunAux img y c (img.w - x) x

theorem extendRun_le (img : Image) (y : Nat) (c : Nat × Nat × Nat) (x : Nat)
    (hx : x ≤ img.w) : extendRun img y c x ≤ img.w :=
  extendRunAux_le img y c (img.w - x) x hx

theorem extendRun_pixels (img : Image) (y : Nat) (c : Nat × Nat × Nat) (x t : Nat)
    (hxt : x ≤ t) (ht : t < extendRun img y c x) :
    (img.px t y).a ≠ 0 ∧ ((img.px t y).r, (img.px t y).g, (img.px t y).b) = c :=
  extendRunAux_pixels img y c (img.w - x) x t hxt ht

theorem extendRun_maximal (img : Image) (y : Nat) (c : Nat × Nat × Nat) (x : Nat)
    (hx : x ≤ img.w) :
    extendRun img y c x = img.w ∨
      ((img.px (extendRun img y c x) y).a = 0 ∨
        ((img.px (extendRun img y c x) y).r,
          (img.px (extendRun img y c x) y).g,
          (img.px (extendRun img y c x) y).b) ≠ c) :=
  extendRunAux_maximal img y c (img.w - x) x hx (Nat.le_refl _)

theorem extendRun_progress (img : Image) (y : Nat) (c : Nat × Nat × Nat) (x : Nat)
    (hx : x < img.w) (ha : (img.px x y).a ≠ 0)
    (hc : ((img.px x y).r, (img.px x y).g, (img.px x y).b) = c) :
    x + 1 ≤ extendRun img y c x :=
  extendRunAux_progress img y c (img.w - x) x hx (Nat.le_refl _) ha hc

/-- Shape and content of every run emitted while scanning a row from
position x: it lies in the row at or after x, has height 1 and positive
width, its key is the hex key of its first pixel, all its pixels are
non-transparent of its first pixel's rgb, and it is maximal to the right. -/
theorem scanRowAux_mem (img : Image) (y : Nat) :
    ∀ fuel x, x ≤ img.w → ∀ cr ∈ scanRowAux img y fuel x,
      cr.2.y = y ∧ cr.2.h = 1 ∧ x ≤ cr.2.x ∧ cr.2.x + cr.2.w ≤ img.w ∧ 1 ≤ cr.2.w ∧
      cr.1 = colorKey (img.px cr.2.x y).r (img.px cr.2.x y).g (img.px cr.2.x y).b ∧
      (∀ t, cr.2.x ≤ t → t < cr.2.x + cr.2.w →
        (img.px t y).a ≠ 0 ∧
        ((img.px t y).r, (img.px t y).g, (img.px t y).b) =
          ((img.px cr.2.x y).r, (img.px cr.2.x y).g, (img.px cr.2.x y).b)) ∧
      (cr.2.x + cr.2.w = img.w ∨
        (img.px (cr.2.x + cr.2.w) y).a = 0 ∨
        ((img.px (cr.2.x + cr.2.w) y).r, (img.px (cr.2.x + cr.2.w) y).g,
            (img.px (cr.2.x + cr.2.w) y).b) ≠
          ((img.px cr.2.x y).r, (img.px cr.2.x y).g, (img.px cr.2.x y).b)) := by
  intro fuel
  induction fuel with
  | zero => intro x hx cr hcr; simp [scanRowAux] at hcr
  | succ n ih =>
    intro x hx cr hcr
    rw [scanRowAux] at hcr
    split at hcr
    · rename_i hxw
      split at hcr
      · obtain ⟨h1, h2, h3, h4⟩ := ih (x + 1) (by omega) cr hcr
        exact ⟨h1, h2, by omega, h4⟩
      · rename_i ha
        rcases List.mem_cons.mp hcr with rfl | htail
        · have hxe1 : x + 1 ≤
              extendRun img y ((img.px x y).r, (img.px x y).g, (img.px x y).b) x :=
            extendRun_progress img y _ x hxw ha rfl
          have hew : extendRun img y ((img.px x y).r, (img.px x y).g, (img.px x y).b) x ≤
              img.w :=
            extendRun_le img y _ x (Nat.le_of_lt hxw)
          refine ⟨rfl, rfl, Nat.le_refl x, by dsimp; omega, by dsimp; omega, rfl, ?_, ?_⟩
          · intro t hxt hte
            have hte2 : t < x + (extendRun img y
                ((img.px x y).r, (img.px x y).g, (img.px x y).b) x - x) := hte
            exact extendRun_pixels img y
              ((img.px x y).r, (img.px x y).g, (img.px x y).b) x t hxt (by omega)
          · have he : x + (extendRun img y
                ((img.px x y).r, (img.px x y).g, (img.px x y).b) x - x) =
                extendRun img y ((img.px x y).r, (img.px x y).g, (img.px x y).b) x := by
              omega
            dsimp
            rw [he]
            exact extendRun_maximal img y _ x (Nat.le_of_lt hxw)
        · have hxe : x ≤ extendRun img y ((img.px x y).r, (img.px x y).g, (img.px x y).b) x :=
            le_extendRun img y _ x
          have hew : extendRun img y ((img.px x y).r, (img.px x y).g, (img.px x y).b) x ≤
              img.w :=
            extendRun_le img y _ x (Nat.le_of_lt hxw)
          obtain ⟨h1, h2, h3, h4⟩ := ih _ hew cr htail
          exact ⟨h1, h2, by omega, h4⟩
    · simp at hcr

/-- Scanning a row from x covers each pixel at or right of x exactly once if
it is non-transparent, never if it is transparent. -/
theorem scanRowAux_countP (img : Image) (y : Nat) :
    ∀ fuel x, img.w - x ≤ fuel → ∀ t, x ≤ t → t < img.w →
      (scanRowAux img y fuel x).countP (fun cr => coversB cr.2 t y) =
        (if (img.px t y).a = 0 then 0 else 1) := by
  intro fuel
  induction fuel with
  | zero => intro x hf t hxt htw; omega
  | succ n ih =>
    intro x hf t hxt htw
    have hxw : x < img.w := by omega
    rw [scanRowAux, if_pos hxw]
    by_cases ha : (img.px x y).a = 0
    · rw [if_pos ha]
      rcases Nat.eq_or_lt_of_le hxt with h | h
      · subst h
        rw [if_pos ha]
        refine List.countP_eq_zero.mpr ?_
        intro cr hcr
        have hm := (scanRowAux_mem img y n (x + 1) (by omega) cr hcr).2.2.1
        simp only [coversB, Bool.and_eq_true, decide_eq_true_eq, not_and]
        intro hle
        omega
      · exact ih (x + 1) (by omega) t h htw
    · rw [if_neg ha]
      rw [List.countP_cons]
      have hxe1 : x + 1 ≤
          extendRun img y ((img.px x y).r, (img.px x y).g, (img.px x y).b) x :=
        extendRun_progress img y _ x hxw ha rfl
      have hew : extendRun img y ((img.px x y).r, (img.px x y).g, (img.px x y).b) x ≤
          img.w :=
        extendRun_le img y _ x (Nat.le_of_lt hxw)
      by_cases hte : t < extendRun img y ((img.px x y).r, (img.px x y).g, (img.px x y).b) x
      · have htail : (scanRowAux img y n
            (extendRun img y ((img.px x y).r, (img.px x y).g, (img.px x y).b) x)).countP
              (fun cr => coversB cr.2 t y) = 0 := by
          refine List.countP_eq_zero.mpr ?_
          intro cr hcr
          have hm := (scanRowAux_mem img y n _ hew cr hcr).2.2.1
          simp only [coversB, Bool.and_eq_true, decide_eq_true_eq, not_and]
          intro hle
          omega
        have hhead : coversB ⟨x, y,
            extendRun img y ((img.px x y).r, (img.px x y).g, (img.px x y).b) x - x, 1⟩ t y =
            true := by
          simp only [coversB, Bool.and_eq_true, decide_eq_true_eq]
          refine ⟨⟨⟨hxt, by omega⟩, Nat.le_refl y⟩, by omega⟩
        rw [htail, hhead]
        have hat : (img.px t y).a ≠ 0 :=
          (extendRun_pixels img y _ x t hxt hte).1
        rw [if_neg hat]
        simp
      · have hhead : coversB ⟨x, y,
            extendRun img y ((img.px x y).r, (img.px x y).g, (img.px x y).b) x - x, 1⟩ t y =
            false := by
          simp only [coversB, Bool.and_eq_false_iff, decide_eq_false_iff_not]
          left; left; right
          omega
        rw [hhead]
        have := ih (extendRun img y ((img.px x y).r, (img.px x y).g, (img.px x y).b) x)
          (by omega) t (by omega) htw
        simpa using this

/-- Shape, content and maximality of every run emitted for the whole image. -/
theorem allRuns_mem (img : Image) (cr : String × Rect) (hcr : cr ∈ allRuns img) :
    cr.2.y < img.h ∧ cr.2.h = 1 ∧ cr.2.x + cr.2.w ≤ img.w ∧ 1 ≤ cr.2.w ∧
    cr.1 = colorKey (img.px cr.2.x cr.2.y).r (img.px cr.2.x cr.2.y).g
      (img.px cr.2.x cr.2.y).b ∧
    (∀ t, cr.2.x ≤ t → t < cr.2.x + cr.2.w →
      (img.px t cr.2.y).a ≠ 0 ∧
      ((img.px t cr.2.y).r, (img.px t cr.2.y).g, (img.px t cr.2.y).b) =
        ((img.px cr.2.x cr.2.y).r, (img.px cr.2.x cr.2.y).g, (img.px cr.2.x cr.2.y).b)) ∧
    (cr.2.x + cr.2.w = img.w ∨
      (img.px (cr.2.x + cr.2.w) cr.2.y).a = 0 ∨
      ((img.px (cr.2.x + cr.2.w) cr.2.y).r, (img.px (cr.2.x + cr.2.w) cr.2.y).g,
          (img.px (cr.2.x + cr.2.w) cr.2.y).b) ≠
        ((img.px cr.2.x cr.2.y).r, (img.px cr.2.x cr.2.y).g, (img.px cr.2.x cr.2.y).b)) := by
  obtain ⟨l, hl, hcrl⟩ := List.mem_flatten.mp hcr
  obtain ⟨y, hy, rfl⟩ := List.mem_map.mp hl
  rw [List.mem_range] at hy
  obtain ⟨h1, h2, h3, h4, h5, h6, h7, h8⟩ :=
    scanRowAux_mem img y img.w 0 (Nat.zero_le _) cr hcrl
  subst h1
  exact ⟨hy, h2, h4, h5, h6, h7, h8⟩

/-- Helper: the sum of a function over an initial segment with a single
possibly non-zero position. -/
theorem sum_map_range_single (f : Nat → Nat) :
    ∀ n y, y < n → (∀ i, i < n → i ≠ y → f i = 0) →
      ((List.range n).map f).sum = f y := by
  intro n
  induction n with
  | zero => intro y hy h0; omega
  | succ m ih =>
    intro y hy h0
    rw [List.range_succ, List.map_append, List.sum_append]
    rcases Nat.lt_or_ge y m with h | h
    · rw [ih y h (fun i hi hne => h0 i (by omega) hne)]
      have hm : f m = 0 := h0 m (by omega) (by omega)
      simp [hm]
    · have hym : y = m := by omega
      subst hym
      have hz : ((List.range y).map f).sum = 0 :=
        List.sum_eq_zero (by
          intro a ha
          obtain ⟨i, hi, rfl⟩ := List.mem_map.mp ha
          rw [List.mem_range] at hi
          exact h0 i (by omega) (by omega))
      simp [hz]

/-- Each in-bounds pixel is covered by exactly one emitted rectangle when
non-transparent, and by none when transparent. -/
theorem allRuns_countP (img : Image) (x y : Nat) (hx : x < img.w) (hy : y < img.h) :
    (allRuns img).countP (fun cr => coversB cr.2 x y) =
      (if (img.px x y).a = 0 then 0 else 1) := by
  have hzero : ∀ i, i < img.h → i ≠ y →
      (scanRow img i).countP (fun cr => coversB cr.2 x y) = 0 := by
    intro i hi hne
    refine List.countP_eq_zero.mpr ?_
    intro cr hcr
    have hm := scanRowAux_mem img i img.w 0 (Nat.zero_le _) cr hcr
    simp only [coversB, Bool.and_eq_true, decide_eq_true_eq, not_and]
    intro hle
    have h1 := hm.1
    have h2 := hm.2.1
    omega
  have hrow : (scanRow img y).countP (fun cr => coversB cr.2 x y) =
      (if (img.px x y).a = 0 then 0 else 1) :=
    scanRowAux_countP img y img.w 0 (by omega) x (Nat.zero_le x) hx
  have hmain := sum_map_range_single
    (fun yy => (scanRow img yy).countP (fun cr => coversB cr.2 x y)) img.h y hy hzero
  rw [allRuns, List.countP_flatten, List.map_map]
  exact hmain.trans hrow

/-- A rectangle covering the pixel (x, y) sits in row y, and its group key is
the hex key of that very pixel, which is non-transparent. -/
theorem allRuns_cover_key (img : Image) (cr : String × Rect) (hcr : cr ∈ allRuns img)
    (x y : Nat) (hcov : coversB cr.2 x y = true) :
    cr.2.y = y ∧ cr.2.x ≤ x ∧ x < cr.2.x + cr.2.w ∧ (img.px x y).a ≠ 0 ∧
    cr.1 = colorKey (img.px x y).r (img.px x y).g (img.px x y).b := by
  obtain ⟨hyh, hh1, hbound, hwpos, hkey, hpix, hmax⟩ := allRuns_mem img cr hcr
  simp only [coversB, Bool.and_eq_true, decide_eq_true_eq] at hcov
  obtain ⟨⟨⟨h1, h2⟩, h3⟩, h4⟩ := hcov
  have hyy : cr.2.y = y := by omega
  rw [← hyy]
  obtain ⟨ha, hrgb⟩ := hpix x h1 h2
  simp only [Prod.mk.injEq] at hrgb
  refine ⟨rfl, h1, h2, ha, ?_⟩
  rw [hkey, hrgb.1, hrgb.2.1, hrgb.2.2]

theorem hexDigit_inj_fin : ∀ a b : Fin 16, hexDigit a = hexDigit b → a = b := by decide

set_option maxHeartbeats 1000000 in
set_option maxRecDepth 10000 in
theorem hex2_data_fin : ∀ n : Fin 256,
    (hex2 n.val).data = [hexDigit (n.val / 16), hexDigit (n.val % 16)] := by decide

theorem hex2_data (n : Nat) (hn : n < 256) :
    (hex2 n).data = [hexDigit (n / 16), hexDigit (n % 16)] :=
  hex2_data_fin ⟨n, hn⟩

theorem hexDigit_inj (a b : Nat) (ha : a < 16) (hb : b < 16)
    (h : hexDigit a = hexDigit b) : a = b := by
  have := hexDigit_inj_fin ⟨a, ha⟩ ⟨b, hb⟩ h
  exact congrArg Fin.val this

/-- On byte-sized channels the hex color key determines the rgb triple. -/
theorem colorKey_inj (r g b r2 g2 b2 : Nat)
    (hr : r < 256) (hg : g < 256) (hb : b < 256)
    (hr2 : r2 < 256) (hg2 : g2 < 256) (hb2 : b2 < 256)
    (h : colorKey r g b = colorKey r2 g2 b2) : r = r2 ∧ g = g2 ∧ b = b2 := by
  have hd := congrArg String.data h
  have hsharp : ("#" : String).data = ['#'] := rfl
  simp only [colorKey, String.data_append, hsharp, hex2_data r hr, hex2_data g hg,
    hex2_data b hb, hex2_data r2 hr2, hex2_data g2 hg2, hex2_data b2 hb2,
    List.append_assoc, List.cons_append, List.nil_append, List.cons.injEq,
    and_true] at hd
  obtain ⟨-, e1, e2, e3, e4, e5, e6⟩ := hd
  have d1 := hexDigit_inj _ _ (by omega) (by omega) e1
  have d2 := hexDigit_inj _ _ (by omega) (by omega) e2
  have d3 := hexDigit_inj _ _ (by omega) (by omega) e3
  have d4 := hexDigit_inj _ _ (by omega) (by omega) e4
  have d5 := hexDigit_inj _ _ (by omega) (by omega) e5
  have d6 := hexDigit_inj _ _ (by omega) (by omega) e6
  omega

theorem addRun_keys (c : String) (rc : Rect) :
    ∀ L : List (String × List Rect),
      (addRun L c rc).map Prod.fst =
        if c ∈ L.map Prod.fst then L.map Prod.fst else L.map Prod.fst ++ [c] := by
  intro L
  induction L with
  | nil => simp [addRun]
  | cons hd rest ih =>
    obtain ⟨c0, rs0⟩ := hd
    by_cases h : c0 = c
    · subst h
      simp [addRun]
    · have h2 : ¬c = c0 := fun hc => h hc.symm
      by_cases hm : c ∈ rest.map Prod.fst
      · simp [addRun, h, h2, ih, hm]
      · simp [addRun, h, h2, ih, hm]

theorem addRun_nodup (c : String) (rc : Rect) (L : List (String × List Rect))
    (h : (L.map Prod.fst).Nodup) : ((addRun L c rc).map Prod.fst).Nodup := by
  rw [addRun_keys]
  split
  · exact h
  · rename_i hm
    simp [List.nodup_append, h, hm]

theorem mem_addRun_of_ne (c c' : String) (hc : c' ≠ c) (rc : Rect) :
    ∀ (L : List (String × List Rect)) (rs' : List Rect),
      ((c', rs') ∈ addRun L c rc ↔ (c', rs') ∈ L) := by
  intro L
  induction L with
  | nil =>
    intro rs'
    simp [addRun, Prod.mk.injEq, hc]
  | cons hd rest ih =>
    intro rs'
    obtain ⟨c0, rs0⟩ := hd
    by_cases h : c0 = c
    · subst h
      have hstep : addRun ((c0, rs0) :: rest) c0 rc = (c0, rs0 ++ [rc]) :: rest := by
        simp [addRun]
      rw [hstep]
      simp only [List.mem_cons]
      constructor
      · rintro (heq | hmem)
        · exact absurd (congrArg Prod.fst heq) hc
        · exact Or.inr hmem
      · rintro (heq | hmem)
        · exact absurd (congrArg Prod.fst heq) hc
        · exact Or.inr hmem
    · have hstep : addRun ((c0, rs0) :: rest) c rc = (c0, rs0) :: addRun rest c rc := by
        simp [addRun, h]
      rw [hstep]
      simp only [List.mem_cons, ih]

theorem mem_addRun_self (c : String) (rc : Rect) :
    ∀ L : List (String × List Rect), (L.map Prod.fst).Nodup →
      ∀ rs', (c, rs') ∈ addRun L c rc →
        ∃ rs0, rs' = rs0 ++ [rc] ∧
          ((c, rs0) ∈ L ∨ (rs0 = [] ∧ c ∉ L.map Prod.fst)) := by
  intro L
  induction L with
  | nil =>
    intro _ rs' hm
    simp [addRun] at hm
    exact ⟨[], by simp [hm], Or.inr ⟨rfl, by simp⟩⟩
  | cons hd rest ih =>
    intro hnd rs' hm
    obtain ⟨c0, rs0⟩ := hd
    by_cases h : c0 = c
    · subst h
      have hstep : addRun ((c0, rs0) :: rest) c0 rc = (c0, rs0 ++ [rc]) :: rest := by
        simp [addRun]
      rw [hstep] at hm
      simp only [List.mem_cons] at hm
      rcases hm with heq | hmem
      · exact ⟨rs0, congrArg Prod.snd heq, Or.inl (List.mem_cons_self _ _)⟩
      · exfalso
        have hck : c0 ∈ rest.map Prod.fst :=
          List.mem_map_of_mem Prod.fst hmem
        simp only [List.map_cons, List.nodup_cons] at hnd
        exact hnd.1 hck
    · have hstep : addRun ((c0, rs0) :: rest) c rc = (c0, rs0) :: addRun rest c rc := by
        simp [addRun, h]
      rw [hstep] at hm
      simp only [List.mem_cons] at hm
      rcases hm with heq | hmem
      · exact absurd (congrArg Prod.fst heq).symm h
      · simp only [List.map_cons, List.nodup_cons] at hnd
        obtain ⟨rs1, heq, hor⟩ := ih hnd.2 rs' hmem
        refine ⟨rs1, heq, ?_⟩
        rcases hor with hin | ⟨hrs, hnotin⟩
        · exact Or.inl (List.mem_cons_of_mem _ hin)
        · refine Or.inr ⟨hrs, ?_⟩
          simp only [List.map_cons, List.mem_cons]
          rintro (hc0 | hcc)
          · exact h hc0.symm
          · exact hnotin hcc

theorem mem_addRun_nonempty (c : String) (rc : Rect) :
    ∀ L : List (String × List Rect), (∀ p ∈ L, p.2 ≠ ([] : List Rect)) →
      ∀ p ∈ addRun L c rc, p.2 ≠ ([] : List Rect) := by
  intro L
  induction L with
  | nil =>
    intro _ p hp
    simp [addRun] at hp
    subst hp
    simp
  | cons hd rest ih =>
    intro hL p hp
    obtain ⟨c0, rs0⟩ := hd
    by_cases h : c0 = c
    · subst h
      have hstep : addRun ((c0, rs0) :: rest) c0 rc = (c0, rs0 ++ [rc]) :: rest := by
        simp [addRun]
      rw [hstep] at hp
      simp only [List.mem_cons] at hp
      rcases hp with rfl | hmem
      · simp
      · exact hL p (List.mem_cons_of_mem _ hmem)
    · have hstep : addRun ((c0, rs0) :: rest) c rc = (c0, rs0) :: addRun rest c rc := by
        simp [addRun, h]
      rw [hstep] at hp
      simp only [List.mem_cons] at hp
      rcases hp with rfl | hmem
      · exact hL _ (List.mem_cons_self _ _)
      · exact ih (fun q hq => hL q (List.mem_cons_of_mem _ hq)) p hmem

theorem firstKeysAux_congr :
    ∀ (runs : List (String × Rect)) (s1 s2 : List String),
      (∀ a, a ∈ s1 ↔ a ∈ s2) → firstKeysAux s1 runs = firstKeysAux s2 runs := by
  intro runs
  induction runs with
  | nil => intro s1 s2 _; rfl
  | cons cr rest ih =>
    intro s1 s2 h
    simp only [firstKeysAux]
    by_cases hm : cr.1 ∈ s1
    · rw [if_pos hm, if_pos ((h cr.1).mp hm), ih s1 s2 h]
    · rw [if_neg hm, if_neg (fun hx => hm ((h cr.1).mpr hx))]
      rw [ih (cr.1 :: s1) (cr.1 :: s2) (by intro a; simp [h a])]

theorem firstKeysAux_mem :
    ∀ (runs : List (String × Rect)) (seen : List String) (a : String),
      (a ∈ firstKeysAux seen runs ↔ (a ∈ runs.map Prod.fst ∧ a ∉ seen)) := by
  intro runs
  induction runs with
  | nil => intro seen a; simp [firstKeysAux]
  | cons cr rest ih =>
    intro seen a
    simp only [firstKeysAux, List.map_cons, List.mem_cons]
    by_cases hm : cr.1 ∈ seen
    · rw [if_pos hm, ih]
      constructor
      · rintro ⟨h1, h2⟩
        exact ⟨Or.inr h1, h2⟩
      · rintro ⟨h1 | h1, h2⟩
        · subst h1; exact absurd hm h2
        · exact ⟨h1, h2⟩
    · rw [if_neg hm]
      simp only [List.mem_cons, ih, List.mem_cons]
      constructor
      · rintro (rfl | ⟨h1, h2⟩)
        · exact ⟨Or.inl rfl, hm⟩
        · refine ⟨Or.inr h1, fun hx => h2 (Or.inr hx)⟩
      · rintro ⟨rfl | h1, h2⟩
        · exact Or.inl rfl
        · rcases eq_or_ne a cr.1 with rfl | hne
          · exact Or.inl rfl
          · exact Or.inr ⟨h1, fun hx => by
              rcases hx with hx | hx
              · exact hne hx
              · exact h2 hx⟩

theorem foldl_addRun_keys :
    ∀ (runs : List (String × Rect)) (acc : List (String × List Rect)),
      (runs.foldl (fun a cr => addRun a cr.1 cr.2) acc).map Prod.fst =
        acc.map Prod.fst ++ firstKeysAux (acc.map Prod.fst) runs := by
  intro runs
  induction runs with
  | nil => intro acc; simp [firstKeysAux]
  | cons cr rest ih =>
    intro acc
    rw [List.foldl_cons]
    by_cases hm : cr.1 ∈ acc.map Prod.fst
    · rw [ih, addRun_keys, if_pos hm]
      simp only [firstKeysAux, if_pos hm]
    · rw [ih, addRun_keys, if_neg hm]
      simp only [firstKeysAux, if_neg hm]
      rw [List.append_assoc]
      congr 1
      rw [firstKeysAux_congr rest (acc.map Prod.fst ++ [cr.1]) (cr.1 :: acc.map Prod.fst)
        (by intro a; simp [or_comm])]
      simp

theorem foldl_addRun_nodup :
    ∀ (runs : List (String × Rect)) (acc : List (String × List Rect)),
      (acc.map Prod.fst).Nodup →
      ((runs.foldl (fun a cr => addRun a cr.1 cr.2) acc).map Prod.fst).Nodup := by
  intro runs
  induction runs with
  | nil => intro acc h; exact h
  | cons cr rest ih =>
    intro acc h
    rw [List.foldl_cons]
    exact ih _ (addRun_nodup cr.1 cr.2 acc h)

theorem foldl_addRun_content :
    ∀ (runs : List (String × Rect)) (acc : List (String × List Rect)),
      (acc.map Prod.fst).Nodup →
      ∀ c rs, (c, rs) ∈ runs.foldl (fun a cr => addRun a cr.1 cr.2) acc →
        ∃ rs0, rs = rs0 ++ (runs.filter (fun cr => decide (cr.1 = c))).map Prod.snd ∧
          ((c, rs0) ∈ acc ∨ (rs0 = [] ∧ c ∉ acc.map Prod.fst)) := by
  intro runs
  induction runs with
  | nil =>
    intro acc _ c rs hm
    exact ⟨rs, by simp, Or.inl hm⟩
  | cons cr rest ih =>
    intro acc hnd c rs hm
    rw [List.foldl_cons] at hm
    obtain ⟨rs0, heq, hor⟩ := ih (addRun acc cr.1 cr.2) (addRun_nodup cr.1 cr.2 acc hnd) c rs hm
    by_cases hcc : cr.1 = c
    · subst hcc
      rcases hor with hin | ⟨rfl, hnotin⟩
      · obtain ⟨rs1, rfl, hor1⟩ := mem_addRun_self cr.1 cr.2 acc hnd rs0 hin
        refine ⟨rs1, ?_, hor1⟩
        rw [heq, List.filter_cons_of_pos (by simp), List.map_cons, List.append_assoc]
        rfl
      · exfalso
        apply hnotin
        rw [addRun_keys]
        split
        · assumption
        · simp
    · rcases hor with hin | ⟨rfl, hnotin⟩
      · rw [mem_addRun_of_ne cr.1 c (fun hx => hcc hx.symm) cr.2 acc rs0] at hin
        refine ⟨rs0, ?_, Or.inl hin⟩
        rw [heq, List.filter_cons_of_neg (by simp [hcc])]
      · refine ⟨[], ?_, Or.inr ⟨rfl, ?_⟩⟩
        · rw [heq, List.filter_cons_of_neg (by simp [hcc])]
        · intro hx
          apply hnotin
          rw [addRun_keys]
          split
          · exact hx
          · exact List.mem_append_left _ hx

theorem buildLayers_keys (runs : List (String × Rect)) :
    (buildLayers runs).map Prod.fst = firstKeys runs :=
  foldl_addRun_keys runs []

theorem buildLayers_content (runs : List (String × Rect)) (c : String) (rs : List Rect)
    (h : (c, rs) ∈ buildLayers runs) :
    rs = (runs.filter (fun cr => decide (cr.1 = c))).map Prod.snd := by
  obtain ⟨rs0, heq, hor⟩ := foldl_addRun_content runs [] (by simp) c rs h
  rcases hor with hmem | ⟨hrs0, -⟩
  · simp at hmem
  · rw [hrs0] at heq
    simpa using heq

theorem buildLayers_keys_mem (runs : List (String × Rect)) (c : String) :
    c ∈ (buildLayers runs).map Prod.fst ↔ c ∈ runs.map Prod.fst := by
  rw [buildLayers_keys, firstKeys, firstKeysAux_mem]
  simp

theorem buildLayers_nonempty (runs : List (String × Rect)) (c : String) (rs : List Rect)
    (h : (c, rs) ∈ buildLayers runs) : rs ≠ [] := by
  have hall : ∀ (l : List (String × Rect)) (acc : List (String × List Rect)),
      (∀ p ∈ acc, p.2 ≠ ([] : List Rect)) →
      ∀ p ∈ l.foldl (fun a cr => addRun a cr.1 cr.2) acc, p.2 ≠ ([] : List Rect) := by
    intro l
    induction l with
    | nil => intro acc ha p hp; exact ha p hp
    | cons cr rest ih =>
      intro acc ha p hp
      rw [List.foldl_cons] at hp
      exact ih _ (mem_addRun_nonempty cr.1 cr.2 acc ha) p hp
  exact hall runs [] (by simp) (c, rs) h

/-- A row whose pixels are all transparent yields no runs. -/
theorem scanRowAux_eq_nil (img : Image) (y : Nat)
    (h : ∀ t, t < img.w → (img.px t y).a = 0) :
    ∀ fuel x, scanRowAux img y fuel x = [] := by
  intro fuel
  induction fuel with
  | zero => intro x; rfl
  | succ n ih =>
    intro x
    rw [scanRowAux]
    split
    · rename_i hxw
      rw [if_pos (h x hxw)]
      exact ih (x + 1)
    · rfl

/-- A fully transparent image yields no runs at all. -/
theorem allRuns_eq_nil (img : Image)
    (h : ∀ x y, x < img.w → y < img.h → (img.px x y).a = 0) :
    allRuns img = [] := by
  rw [allRuns]
  refine List.flatten_eq_nil_iff.mpr ?_
  intro l hl
  obtain ⟨y, hy, rfl⟩ := List.mem_map.mp hl
  rw [List.mem_range] at hy
  exact scanRowAux_eq_nil img y (fun t ht => h t y ht hy) img.w 0

/-- The inner loop reads only in-bounds pixels of its row. -/
theorem extendRunAux_congr (w h : Nat) (px1 px2 : Nat → Nat → Pixel) (y : Nat)
    (hy : y < h) (hpx : ∀ x yy, x < w → yy < h → px1 x yy = px2 x yy)
    (c : Nat × Nat × Nat) :
    ∀ fuel x, extendRunAux ⟨w, h, px1⟩ y c fuel x = extendRunAux ⟨w, h, px2⟩ y c fuel x := by
  intro fuel
  induction fuel with
  | zero => intro x; rfl
  | succ n ih =>
    intro x
    rw [extendRunAux, extendRunAux]
    dsimp only
    by_cases hxw : x < w
    · rw [if_pos hxw, if_pos hxw, hpx x y hxw hy]
      by_cases hc : (px2 x y).a = 0 ∨ ((px2 x y).r, (px2 x y).g, (px2 x y).b) ≠ c
      · rw [if_pos hc, if_pos hc]
      · rw [if_neg hc, if_neg hc]
        exact ih (x + 1)
    · rw [if_neg hxw, if_neg hxw]

/-- The outer loop reads only in-bounds pixels of its row. -/
theorem scanRowAux_congr (w h : Nat) (px1 px2 : Nat → Nat → Pixel) (y : Nat)
    (hy : y < h) (hpx : ∀ x yy, x < w → yy < h → px1 x yy = px2 x yy) :
    ∀ fuel x, scanRowAux ⟨w, h, px1⟩ y fuel x = scanRowAux ⟨w, h, px2⟩ y fuel x := by
  intro fuel
  induction fuel with
  | zero => intro x; rfl
  | succ n ih =>
    intro x
    rw [scanRowAux, scanRowAux]
    dsimp only
    by_cases hxw : x < w
    · rw [if_pos hxw, if_pos hxw, hpx x y hxw hy]
      by_cases ha : (px2 x y).a = 0
      · rw [if_pos ha, if_pos ha]
        exact ih (x + 1)
      · rw [if_neg ha, if_neg ha]
        have hE : extendRun ⟨w, h, px1⟩ y ((px2 x y).r, (px2 x y).g, (px2 x y).b) x =
            extendRun ⟨w, h, px2⟩ y ((px2 x y).r, (px2 x y).g, (px2 x y).b) x :=
          extendRunAux_congr w h px1 px2 y hy hpx _ (w - x) x
        rw [hE]
        exact congrArg _ (ih _)
    · rw [if_neg hxw, if_neg hxw]

/-- The whole transformation reads only in-bounds pixels. -/
theorem svgDoc_congr (img1 img2 : Image) (hw : img1.w = img2.w) (hh : img1.h = img2.h)
    (hpx : ∀ x y, x < img1.w → y < img1.h → img1.px x y = img2.px x y) :
    svgDoc img1 = svgDoc img2 := by
  obtain ⟨w1, h1, px1⟩ := img1
  obtain ⟨w2, h2, px2⟩ := img2
  dsimp only at hw hh hpx
  subst hw
  subst hh
  have hruns : allRuns ⟨w1, h1, px1⟩ = allRuns ⟨w1, h1, px2⟩ := by
    rw [allRuns, allRuns]
    congr 1
    refine List.map_congr_left ?_
    intro y hy
    rw [List.mem_range] at hy
    exact scanRowAux_congr w1 h1 px1 px2 y hy hpx w1 0
  rw [svgDoc, svgDoc, hruns]

/-- C1: every in-bounds pixel with non-zero alpha is covered by exactly one
emitted rectangle; pixels with alpha 0 are covered by no rectangle; and for
each byte rgb color, some rectangle emitted under that color key covers the
pixel exactly when the pixel is non-transparent and has that exact rgb. -/
theorem png2svg_pixel_partition (img : Image) (hwf : img.Wf) (x y : Nat)
    (hx : x < img.w) (hy : y < img.h) :
    ((img.px x y).a ≠ 0 → (allRuns img).countP (fun cr => coversB cr.2 x y) = 1) ∧
    ((img.px x y).a = 0 → ∀ cr ∈ allRuns img, coversB cr.2 x y = false) ∧
    (∀ r g b : Nat, r < 256 → g < 256 → b < 256 →
      ((∃ cr ∈ allRuns img, cr.1 = colorKey r g b ∧ coversB cr.2 x y = true) ↔
        ((img.px x y).a ≠ 0 ∧ (img.px x y).r = r ∧ (img.px x y).g = g ∧
          (img.px x y).b = b))) := by
  refine ⟨?_, ?_, ?_⟩
  · intro ha
    rw [allRuns_countP img x y hx hy, if_neg ha]
  · intro ha cr hcr
    cases hcb : coversB cr.2 x y with
    | false => rfl
    | true =>
      exact absurd ha (allRuns_cover_key img cr hcr x y hcb).2.2.2.1
  · intro r g b hr hg hb
    constructor
    · rintro ⟨cr, hcr, hkey, hcov⟩
      have hk := allRuns_cover_key img cr hcr x y hcov
      have heq : colorKey (img.px x y).r (img.px x y).g (img.px x y).b =
          colorKey r g b := by
        rw [← hk.2.2.2.2, hkey]
      obtain ⟨hwr, hwg, hwb⟩ := hwf x y hx hy
      obtain ⟨e1, e2, e3⟩ := colorKey_inj _ _ _ _ _ _ hwr hwg hwb hr hg hb heq
      exact ⟨hk.2.2.2.1, e1, e2, e3⟩
    · rintro ⟨ha, rfl, rfl, rfl⟩
      have h1 : 0 < (allRuns img).countP (fun cr => coversB cr.2 x y) := by
        rw [allRuns_countP img x y hx hy, if_neg ha]
        omega
      obtain ⟨cr, hcr, hcov⟩ := List.countP_pos_iff.mp h1
      exact ⟨cr, hcr, (allRuns_cover_key img cr hcr x y hcov).2.2.2.2, hcov⟩

theorem png2svg_pixel_partition_witness :
    (allRuns redRedBlue).countP (fun cr => coversB cr.2 2 0) = 1 :=
  (png2svg_pixel_partition redRedBlue
    (by
      intro x y _ _
      by_cases h : x < 2 <;> simp [redRedBlue, h])
    2 0 (by decide) (by decide)).1 (by decide)

/-- C2: every emitted rectangle has height exactly 1 and width at least 1. -/
theorem png2svg_rect_dims (img : Image) (cr : String × Rect)
    (hcr : cr ∈ allRuns img) : cr.2.h = 1 ∧ 1 ≤ cr.2.w :=
  ⟨(allRuns_mem img cr hcr).2.1, (allRuns_mem img cr hcr).2.2.2.1⟩

theorem png2svg_rect_dims_witness :
    (("#ff0000", (⟨0, 0, 2, 1⟩ : Rect)) ∈ allRuns redRedBlue) ∧
    ((⟨0, 0, 2, 1⟩ : Rect).h = 1 ∧ 1 ≤ (⟨0, 0, 2, 1⟩ : Rect).w) :=
  ⟨by decide, png2svg_rect_dims redRedBlue ("#ff0000", ⟨0, 0, 2, 1⟩) (by decide)⟩

/-- C3: runs are maximal: every emitted run has height 1, carries the hex key
of its first pixel, all its pixels are non-transparent with exactly its first
pixel's rgb, and it ends only at the image width or at a pixel that is
transparent or differently colored. -/
theorem png2svg_runs_maximal (img : Image) (cr : String × Rect)
    (hcr : cr ∈ allRuns img) :
    cr.2.h = 1 ∧
    cr.1 = colorKey (img.px cr.2.x cr.2.y).r (img.px cr.2.x cr.2.y).g
      (img.px cr.2.x cr.2.y).b ∧
    (∀ t, cr.2.x ≤ t → t < cr.2.x + cr.2.w →
      (img.px t cr.2.y).a ≠ 0 ∧
      ((img.px t cr.2.y).r, (img.px t cr.2.y).g, (img.px t cr.2.y).b) =
        ((img.px cr.2.x cr.2.y).r, (img.px cr.2.x cr.2.y).g,
          (img.px cr.2.x cr.2.y).b)) ∧
    (cr.2.x + cr.2.w = img.w ∨
      (img.px (cr.2.x + cr.2.w) cr.2.y).a = 0 ∨
      ((img.px (cr.2.x + cr.2.w) cr.2.y).r, (img.px (cr.2.x + cr.2.w) cr.2.y).g,
          (img.px (cr.2.x + cr.2.w) cr.2.y).b) ≠
        ((img.px cr.2.x cr.2.y).r, (img.px cr.2.x cr.2.y).g,
          (img.px cr.2.x cr.2.y).b)) := by
  obtain ⟨h1, h2, h3, h4, h5, h6, h7⟩ := allRuns_mem img cr hcr
  exact ⟨h2, h5, h6, h7⟩

theorem png2svg_runs_maximal_witness :
    (("#0000ff", (⟨2, 0, 1, 1⟩ : Rect)) ∈ allRuns redRedBlue) ∧
    (⟨2, 0, 1, 1⟩ : Rect).h = 1 :=
  ⟨by decide,
    (png2svg_runs_maximal redRedBlue ("#0000ff", ⟨2, 0, 1, 1⟩) (by decide)).1⟩

/-- C4: the 3 by 1 image red, red, blue produces exactly the two groups
ff0000 with the single rectangle (0, 0, 2, 1) and 0000ff with the single
rectangle (2, 0, 1, 1), in that order. -/
theorem png2svg_redRedBlue_groups :
    buildLayers (allRuns redRedBlue) =
      [("#ff0000", [⟨0, 0, 2, 1⟩]), ("#0000ff", [⟨2, 0, 1, 1⟩])] := by
  decide

/-- C5: a fully transparent image produces no runs, no groups, and an output
document that is just the root element with the image dimensions. -/
theorem png2svg_transparent_empty (img : Image)
    (h : ∀ x y, x < img.w → y < img.h → (img.px x y).a = 0) :
    allRuns img = [] ∧ buildLayers (allRuns img) = [] ∧
    svgDoc img = svgHeader img.w img.h ++ "</svg>\n" := by
  have hnil := allRuns_eq_nil img h
  refine ⟨hnil, by rw [hnil]; rfl, ?_⟩
  rw [svgDoc, hnil]
  show svgHeader img.w img.h ++ String.join [] ++ "</svg>\n" = _
  rw [show String.join [] = "" from rfl, String.append_empty]

theorem png2svg_transparent_empty_witness :
    allRuns (clearImage 2 2) = [] ∧ buildLayers (allRuns (clearImage 2 2)) = [] ∧
    svgDoc (clearImage 2 2) =
      svgHeader (clearImage 2 2).w (clearImage 2 2).h ++ "</svg>\n" :=
  png2svg_transparent_empty (clearImage 2 2) (fun _ _ _ _ => rfl)

/-- C6: alpha intensity is discarded: two horizontally adjacent non-transparent
pixels with identical rgb end up covered by one and the same rectangle,
whatever their alpha values are. -/
theorem png2svg_alpha_discarded (img : Image) (x y : Nat)
    (hx1 : x + 1 < img.w) (hy : y < img.h)
    (h1 : (img.px x y).a ≠ 0) (h2 : (img.px (x + 1) y).a ≠ 0)
    (hrgb : ((img.px (x + 1) y).r, (img.px (x + 1) y).g, (img.px (x + 1) y).b) =
      ((img.px x y).r, (img.px x y).g, (img.px x y).b)) :
    ∃ cr ∈ allRuns img, coversB cr.2 x y = true ∧ coversB cr.2 (x + 1) y = true := by
  have hc : 0 < (allRuns img).countP (fun cr => coversB cr.2 x y) := by
    rw [allRuns_countP img x y (by omega) hy, if_neg h1]
    omega
  obtain ⟨cr, hcr, hcov⟩ := List.countP_pos_iff.mp hc
  refine ⟨cr, hcr, hcov, ?_⟩
  obtain ⟨hyy, hle, hlt, -, -⟩ := allRuns_cover_key img cr hcr x y hcov
  obtain ⟨hyh, hh1, hbound, hwpos, hkey, hpix, hmax⟩ := allRuns_mem img cr hcr
  rw [hyy] at hpix hmax
  by_cases hend : x + 1 < cr.2.x + cr.2.w
  · simp only [coversB, Bool.and_eq_true, decide_eq_true_eq]
    exact ⟨⟨⟨by omega, hend⟩, by omega⟩, by omega⟩
  · exfalso
    have hendeq : cr.2.x + cr.2.w = x + 1 := by omega
    rcases hmax with hw | hcase
    · omega
    · rw [hendeq] at hcase
      have hx0 := hpix x hle hlt
      rcases hcase with ha0 | hne
      · exact h2 ha0
      · exact hne (hrgb.trans hx0.2)

theorem png2svg_alpha_discarded_witness :
    (twoAlphas.px 0 0).a ≠ 0 ∧ (twoAlphas.px 1 0).a ≠ 0 ∧
    (twoAlphas.px 0 0).a ≠ (twoAlphas.px 1 0).a ∧
    ∃ cr ∈ allRuns twoAlphas, coversB cr.2 0 0 = true ∧ coversB cr.2 1 0 = true :=
  ⟨by decide, by decide, by decide,
    png2svg_alpha_discarded twoAlphas 0 0 (by decide) (by decide) (by decide)
      (by decide) (by decide)⟩

/-- C7: groups appear in first-encounter order of their color keys during the
row-major scan, each group holds exactly the rectangles of its color in scan
order with all four attributes verbatim, and the document serializes the
groups in that order. -/
theorem png2svg_output_order (img : Image) :
    (buildLayers (allRuns img)).map Prod.fst = firstKeys (allRuns img) ∧
    (∀ c rs, (c, rs) ∈ buildLayers (allRuns img) →
      rs = ((allRuns img).filter (fun cr => decide (cr.1 = c))).map Prod.snd) ∧
    svgDoc img = svgHeader img.w img.h ++
      String.join ((buildLayers (allRuns img)).map (fun cl => groupText cl.1 cl.2)) ++
      "</svg>\n" :=
  ⟨buildLayers_keys _, fun c rs h => buildLayers_content _ c rs h, rfl⟩

theorem png2svg_output_order_witness :
    (buildLayers (allRuns redRedBlue)).map Prod.fst = firstKeys (allRuns redRedBlue) ∧
    (("#ff0000", [(⟨0, 0, 2, 1⟩ : Rect)]) ∈ buildLayers (allRuns redRedBlue)) ∧
    [(⟨0, 0, 2, 1⟩ : Rect)] = ((allRuns redRedBlue).filter
      (fun cr => decide (cr.1 = "#ff0000"))).map Prod.snd :=
  ⟨(png2svg_output_order redRedBlue).1, by decide,
    (png2svg_output_order redRedBlue).2.1 "#ff0000" [⟨0, 0, 2, 1⟩] (by decide)⟩

/-- C8: the output document is a function of the pixel grid alone: two images
with the same dimensions and the same in-bounds pixels produce byte-identical
documents. -/
theorem png2svg_deterministic (img1 img2 : Image)
    (hw : img1.w = img2.w) (hh : img1.h = img2.h)
    (hpx : ∀ x y, x < img1.w → y < img1.h → img1.px x y = img2.px x y) :
    svgDoc img1 = svgDoc img2 :=
  svgDoc_congr img1 img2 hw hh hpx

theorem png2svg_deterministic_witness :
    detA.w = detB.w ∧ detA.h = detB.h ∧ detA.px 0 0 = detB.px 0 0 ∧
    svgDoc detA = svgDoc detB :=
  ⟨rfl, rfl, by decide,
    png2svg_deterministic detA detB rfl rfl
      (by
        intro x y hx hy
        have hx0 : x = 0 := by
          simpa [detA] using hx
        have hy0 : y = 0 := by
          simpa [detA] using hy
        subst hx0
        subst hy0
        rfl)⟩

/-- C9: every emitted rectangle lies within the image bounds. -/
theorem png2svg_rects_in_bounds (img : Image) (cr : String × Rect)
    (hcr : cr ∈ allRuns img) :
    cr.2.x + cr.2.w ≤ img.w ∧ cr.2.y < img.h ∧ cr.2.y + cr.2.h ≤ img.h := by
  obtain ⟨h1, h2, h3, h4, h5, h6, h7⟩ := allRuns_mem img cr hcr
  exact ⟨h3, h1, by omega⟩

theorem png2svg_rects_in_bounds_witness :
    (("#0000ff", (⟨2, 0, 1, 1⟩ : Rect)) ∈ allRuns redRedBlue) ∧
    2 + 1 ≤ redRedBlue.w ∧ (0 : Nat) < redRedBlue.h :=
  ⟨by decide,
    (png2svg_rects_in_bounds redRedBlue ("#0000ff", ⟨2, 0, 1, 1⟩) (by decide)).1,
    (png2svg_rects_in_bounds redRedBlue ("#0000ff", ⟨2, 0, 1, 1⟩) (by decide)).2.1⟩

/-- C10: no group is empty, and a color key occurs in the layer mapping only
if some run of that key was extracted. -/
theorem png2svg_no_empty_groups (img : Image) (c : String) (rs : List Rect)
    (h : (c, rs) ∈ buildLayers (allRuns img)) :
    rs ≠ [] ∧ ∃ cr ∈ allRuns img, cr.1 = c := by
  refine ⟨buildLayers_nonempty _ c rs h, ?_⟩
  have hc : c ∈ (buildLayers (allRuns img)).map Prod.fst :=
    List.mem_map_of_mem Prod.fst h
  rw [buildLayers_keys_mem] at hc
  obtain ⟨cr, hcr, hkey⟩ := List.mem_map.mp hc
  exact ⟨cr, hcr, hkey⟩

theorem png2svg_no_empty_groups_witness :
    (("#0000ff", [(⟨2, 0, 1, 1⟩ : Rect)]) ∈ buildLayers (allRuns redRedBlue)) ∧
    ([(⟨2, 0, 1, 1⟩ : Rect)] ≠ ([] : List Rect) ∧
      ∃ cr ∈ allRuns redRedBlue, cr.1 = "#0000ff") :=
  ⟨by decide,
    png2svg_no_empty_groups redRedBlue "#0000ff" [⟨2, 0, 1, 1⟩] (by decide)⟩
